import Mathlib

/-! Shallow embedding of the studio-b12/ozzo-routing static-file and caching
middleware, together with proofs about its documented behaviour.  Go strings
are modelled as lists of characters (`Str`); byte-level indexing in the Go
code coincides with character indexing on this model for the ASCII data the
handlers manipulate, and UTF-8 byte order agrees with codepoint order, so the
lexicographic comparisons also coincide. -/

set_option maxRecDepth 4000

abbrev Str := List Char

/-- Character list of a Lean string literal. -/
def lit (s : String) : Str := s.data

/-- Codepoint comparison of characters, agreeing with the byte order Go uses
to compare strings. -/
def charLt (a b : Char) : Bool := a.toNat < b.toNat

/-- Lexicographic order on character lists: the ordering used by Go's
sort.Strings. -/
def strLe : Str → Str → Bool
  | [], _ => true
  | _ :: _, [] => false
  | a :: sa, b :: sb => if charLt a b then true else if charLt b a then false else strLe sa sb

/-- Models Go strings.HasPrefix s p. -/
def goHasPfx : Str → Str → Bool
  | _, [] => true
  | [], _ :: _ => false
  | c :: s, p :: ps => c == p && goHasPfx s ps

/-- Models Go strings.Contains s sub. -/
def goContains : Str → Str → Bool
  | [], sub => sub.isEmpty
  | c :: s, sub => goHasPfx (c :: s) sub || goContains s sub

/-- isSlashRune from part_001 line 227: a forward or backward slash. -/
def isSlashRune (r : Char) : Bool := r == '/' || r == '\\'

/-- Accumulator worker for fieldsFunc; acc holds the current field in
reverse. -/
def fieldsFuncAux (f : Char → Bool) : List Char → List Char → List (List Char)
  | [], acc => if acc.isEmpty then [] else [acc.reverse]
  | c :: s, acc =>
    if f c then
      if acc.isEmpty then fieldsFuncAux f s [] else acc.reverse :: fieldsFuncAux f s []
    else fieldsFuncAux f s (c :: acc)

/-- Models Go strings.FieldsFunc: the maximal runs of characters not
satisfying f, in order, with no empty fields. -/
def fieldsFunc (f : Char → Bool) (s : List Char) : List (List Char) := fieldsFuncAux f s []

/-- containsDotDot from part_001 lines 215-225: the path has a ".." element
when split at slash runes. -/
def containsDotDot (v : Str) : Bool :=
  if !(goContains v (lit "..")) then false
  else (fieldsFunc isSlashRune v).any (fun ent => ent == lit "..")

/-- Insert into a strLe-sorted list, keeping it sorted. -/
def insertSorted (x : Str) : List Str → List Str
  | [] => [x]
  | y :: ys => if strLe x y then x :: y :: ys else y :: insertSorted x ys

/-- Models Go sort.Strings (ascending lexicographic order).  Implemented as
an insertion sort: on the duplicate-free key lists produced by a Go map the
ascending sorted permutation is unique, so this agrees with any sorting
algorithm. -/
def sortStrs (l : List Str) : List Str := l.foldr insertSorted []

/-- Go map read pathMap[k]; the keys of a Go map are unique, so the first
matching entry of the association list is the entry. -/
def mapGet (m : List (Str × Str)) (k : Str) : Str :=
  match m.find? (fun p => p.1 == k) with
  | some p => p.2
  | none => []

/-- parsePathMap from part_001 lines 170-183: the keys sorted ascending, and
their mapped values in the same order. -/
def parsePathMap (m : List (Str × Str)) : List Str × List Str :=
  let fromKeys := sortStrs (m.map Prod.fst)
  (fromKeys, fromKeys.map (fun k => mapGet m k))

/-- Worker for matchPath: scan the given prefix-target pairs in order and
substitute the first prefix of path. -/
def matchPathAux (path : Str) : List (Str × Str) → Str × Bool
  | [] => ([], false)
  | pt :: rest =>
    if goHasPfx path pt.1 then (pt.2 ++ path.drop pt.1.length, true)
    else matchPathAux path rest

/-- matchPath from part_001 lines 185-193: scan the sorted prefixes from the
lexicographically largest down to the smallest, returning target plus the
remainder of the path for the first registered prefix of the path. -/
def matchPath (path : Str) (fromKeys toVals : List Str) : Str × Bool :=
  matchPathAux path ((fromKeys.zip toVals).reverse)

/-- Space test modelling Go unicode.IsSpace on the Latin-1 range, the only
characters arising in Accept-Encoding headers. -/
def goIsSpace (c : Char) : Bool :=
  c == ' ' || c == '\t' || c == '\n' || c == '\x0b' || c == '\x0c' || c == '\r' ||
    c == '\x85' || c == '\xa0'

/-- Models Go strings.ToLower, restricted to ASCII letters. -/
def goToLowerChar (c : Char) : Char :=
  if 'A' ≤ c ∧ c ≤ 'Z' then Char.ofNat (c.toNat + 32) else c

/-- Lowercase every character. -/
def goToLower (s : Str) : Str := s.map goToLowerChar

/-- Models Go strings.TrimSpace. -/
def goTrimSpace (s : Str) : Str :=
  ((s.dropWhile goIsSpace).reverse.dropWhile goIsSpace).reverse

/-- Models Go strings.Split with the single-character separator ",". -/
def goSplitComma (s : Str) : List Str := s.splitOn ','

/-- negotiateEncodings from part_001 lines 195-212.  The first argument is
the request's Accept-Encoding header value; encodings are modelled by their
token strings. -/
def negotiateEncodings (acceptHeader : Str) (available : List Str) : List Str :=
  if available.length == 0 then []
  else
    let acceptEncodings := goSplitComma acceptHeader
    available.foldl
      (fun acc availEnc =>
        acceptEncodings.foldl
          (fun acc2 accEnc =>
            if availEnc == goTrimSpace (goToLower accEnc) then acc2 ++ [availEnc] else acc2)
          acc)
      []

/-- File metadata returned by Stat; only directory-ness is consulted by the
handlers. -/
structure FileStat where
  isDir : Bool
deriving DecidableEq

instance {ε α : Type} [DecidableEq ε] [DecidableEq α] : DecidableEq (Except ε α) := fun a b =>
  match a, b with
  | .error e, .error e' =>
    if h : e = e' then isTrue (congrArg Except.error h)
    else isFalse fun c => h (by injection c)
  | .error _, .ok _ => isFalse fun c => Except.noConfusion c
  | .ok _, .error _ => isFalse fun c => Except.noConfusion c
  | .ok a, .ok a' =>
    if h : a = a' then isTrue (congrArg Except.ok h)
    else isFalse fun c => h (by injection c)

/-- An open http.File is modelled by the outcome of its Stat call; errors
are modelled by their message string (what err.Error() yields). -/
structure GoFile where
  stat : Except Str FileStat
deriving DecidableEq

/-- Semantics of an http.Dir (or any http.FileSystem): a name is mapped to
an open file or an error. -/
abbrev DirFn := Str → Except Str GoFile

/-- compressionDir from src/file/compdir.go (CompressionDir in the exported
duplicate part_000): a file system with the negotiated encodings. -/
structure CompressionDir where
  dir : DirFn
  encodings : List Str

/-- Worker for compressionDir.Open: try each encoded variant in order, then
the plain path. -/
def openEncoded (dir : DirFn) (path : Str) : List Str → Except Str (GoFile × Str)
  | [] =>
    match dir path with
    | .ok f => .ok (f, [])
    | .error e => .error e
  | enc :: rest =>
    match dir (path ++ lit "." ++ enc) with
    | .ok f => .ok (f, enc)
    | .error _ => openEncoded dir path rest

/-- compressionDir.Open from src/file/compdir.go lines 13-23: open
path.enc for each negotiated encoding in order, returning the first success
with its encoding; otherwise open the plain path, whose outcome is returned
with the empty encoding. -/
def CompressionDir.Open (t : CompressionDir) (path : Str) : Except Str (GoFile × Str) :=
  openEncoded t.dir path t.encodings

/-- ServerOptions from src/file/options.go.  Go nil-able values are modelled
with Option: a nil Allow callback, a nil Compression slice, a nil FS.  The
Allow callback abstracts the *routing.Context argument away and keeps the
resolved path; fs.FS values are abstracted to a numeric token, since the
code modelled here only tests them against nil and copies them. -/
structure ServerOptions where
  RootPath : Str := []
  IndexFile : Str := []
  CatchAllFile : Str := []
  Allow : Option (Str → Bool) := none
  Compression : Option (List Str) := none
  FS : Option Nat := none

/-- Merge from src/file/options.go lines 40-63: every field set in other
overrides the corresponding field of the current instance. -/
def ServerOptions.Merge (t other : ServerOptions) : ServerOptions :=
  let n1 := if other.Allow.isSome then { t with Allow := other.Allow } else t
  let n2 := if other.CatchAllFile ≠ [] then { n1 with CatchAllFile := other.CatchAllFile } else n1
  let n3 := if other.Compression.isSome then { n2 with Compression := other.Compression } else n2
  let n4 := if other.IndexFile ≠ [] then { n3 with IndexFile := other.IndexFile } else n3
  let n5 := if other.RootPath ≠ [] then { n4 with RootPath := other.RootPath } else n4
  if other.FS.isSome then { n5 with FS := other.FS } else n5

/-- Models Go path/filepath.IsAbs on Unix: the path begins with a slash. -/
def goIsAbs (p : Str) : Bool :=
  match p with
  | '/' :: _ => true
  | _ => false

/-- Modelled from the Go standard library filepath.Join for the two-argument
uses in options.go and part_001: concatenation with a slash separator,
skipping empty components.  The lexical Clean step of the real Join is not
modelled; no claim settled here depends on it. -/
def goFilepathJoin (a b : Str) : Str :=
  if a = [] then b else if b = [] then a else a ++ '/' :: b

/-- getServerOptions from src/file/options.go lines 65-77; workRoot stands
for the process-wide RootPath captured at startup. -/
def getServerOptions (opts : List ServerOptions) (workRoot : Str) : ServerOptions :=
  let options := opts.foldl ServerOptions.Merge {}
  if !(goIsAbs options.RootPath) then
    { options with RootPath := goFilepathJoin workRoot options.RootPath }
  else options

/-- Inbound request data consumed by the handlers: method, URL path, and the
Accept-Encoding header value. -/
structure Request where
  method : Str
  path : Str
  acceptEncoding : Str

/-- Observable outcome of a handler: an HTTP error with status and optional
message, or streaming a file via http.ServeContent under a name, with the
Content-Encoding header value (empty when that header is not set). -/
inductive HResult where
  | httpError (status : Nat) (msg : Option Str)
  | content (name : Str) (enc : Str)
deriving DecidableEq

/-- Compression slice of the merged options; a nil (none) slice has length
zero. -/
def compressionList (o : ServerOptions) : List Str := o.Compression.getD []

/-- serveFile from part_001 lines 116-135. -/
def serveFile (dir : CompressionDir) (path : Str) : HResult :=
  match dir.Open path with
  | .error e => .httpError 404 (some e)
  | .ok (f, enc) =>
    match f.stat with
    | .error e => .httpError 404 (some e)
    | .ok fstat =>
      if fstat.isDir then .httpError 404 none
      else .content path enc

/-- Body of the Server handler after the method and traversal gates
(part_001 lines 74-113): path mapping, allow check, encoding negotiation,
open with catch-all fallback, directory and index handling, and content
serving. -/
def serverBody (fromKeys toVals : List Str) (options : ServerOptions) (dir : DirFn)
    (req : Request) : HResult :=
  let pf := matchPath req.path fromKeys toVals
  if !pf.2 || (match options.Allow with | some allow => !allow pf.1 | none => false) then
    .httpError 404 none
  else
    let encodings := negotiateEncodings req.acceptEncoding (compressionList options)
    let cdir : CompressionDir := ⟨dir, encodings⟩
    match cdir.Open pf.1 with
    | .error e =>
      if options.CatchAllFile ≠ [] then serveFile cdir options.CatchAllFile
      else .httpError 404 (some e)
    | .ok (f, enc) =>
      match f.stat with
      | .error e => .httpError 404 (some e)
      | .ok fstat =>
        if fstat.isDir then
          if options.IndexFile = [] then .httpError 404 none
          else serveFile cdir (goFilepathJoin pf.1 options.IndexFile)
        else .content pf.1 enc

/-- Handler returned by Server (part_001 lines 57-114).  The options
argument stands for the already-merged getServerOptions result and dir for
the semantics of http.Dir(options.RootPath). -/
def Server (pathMap : List (Str × Str)) (options : ServerOptions) (dir : DirFn)
    (req : Request) : HResult :=
  let ft := parsePathMap pathMap
  if req.method ≠ lit "GET" ∧ req.method ≠ lit "HEAD" then .httpError 405 none
  else if containsDotDot req.path then .httpError 400 (some (lit "invalid URL path"))
  else serverBody ft.1 ft.2 options dir req

/-- Handler returned by Content (part_001 lines 137-168): for an absolute
path the served name is rewritten to the empty string (the http.Dir is then
rooted at the path itself); dir stands for the corresponding http.Dir. -/
def Content (path0 : Str) (options : ServerOptions) (dir : DirFn) (req : Request) : HResult :=
  let path := if goIsAbs path0 then [] else path0
  if req.method ≠ lit "GET" ∧ req.method ≠ lit "HEAD" then .httpError 405 none
  else if containsDotDot req.path then .httpError 400 (some (lit "invalid URL path"))
  else
    let encodings := negotiateEncodings req.acceptEncoding (compressionList options)
    serveFile ⟨dir, encodings⟩ path

/-- Nanoseconds per second: Go's time.Second. -/
def goSecond : Int := 1000000000

/-- Largest time.Duration (int64) value. -/
def maxDuration : Int := 9223372036854775807

/-- Smallest time.Duration (int64) value. -/
def minDuration : Int := -9223372036854775808

/-- Wrap an integer into int64 range, modelling Go's two's-complement
arithmetic. -/
def wrap64 (x : Int) : Int :=
  (x + 9223372036854775808) % 18446744073709551616 - 9223372036854775808

/-- Go's % on int64 (truncated remainder) for a positive modulus, the only
way it is reached inside Duration.Round. -/
def goRem (a b : Int) : Int := if a < 0 then -((-a) % b) else a % b

/-- lessThanHalf from Go's time package: x+x < y on int64. -/
def lessThanHalf (x y : Int) : Bool := wrap64 (x + x) < y

/-- Models Go time.Duration.Round: round to the nearest multiple of m, half
away from zero, saturating at the int64 extremes. -/
def durRound (d m : Int) : Int :=
  if m ≤ 0 then d
  else
    let r := goRem d m
    if d < 0 then
      let r2 := -r
      if lessThanHalf r2 m then wrap64 (d + r2)
      else
        let d1 := wrap64 (d - m + r2)
        if d1 < d then d1 else minDuration
    else
      if lessThanHalf r m then wrap64 (d - r)
      else
        let d1 := wrap64 (d + m - r)
        if d1 > d then d1 else maxDuration

/-- Models int64(d.Seconds()) for outputs of durRound with m = goSecond:
such a value is a multiple of a second or a saturated extreme, and in both
cases converting to float64 seconds and truncating to int64 equals the
truncated division by 1e9. -/
def durSecondsInt (d : Int) : Int := if d < 0 then -((-d) / goSecond) else d / goSecond

/-- Decimal rendering of an int64, as fmt's %d verb produces. -/
def intToStr (i : Int) : Str := (toString i).data

namespace caching

/-- Options from src/caching/handler.go: Cache-Control directive values.
Durations (time.Duration) are modelled as int64 nanosecond counts. -/
structure Options where
  Access : Str := []
  MaxAge : Int := 0
  SMaxAge : Int := 0
  NoCache : Bool := false
  NoStore : Bool := false
  MustRevalidate : Bool := false
  ProxyRevalidate : Bool := false
  MustUnderstand : Bool := false
  NoTransform : Bool := false
  Immutable : Bool := false

/-- BuildHeaderValues from src/caching/handler.go lines 37-86: append each
set directive followed by a comma and space, then cut the final two
characters. -/
def Options.BuildHeaderValues (t : Options) : Str :=
  let v :=
    (if t.Access ≠ [] then t.Access ++ lit ", " else [])
    ++ (if t.MaxAge ≠ 0 then
          lit "max-age=" ++ intToStr (durSecondsInt (durRound t.MaxAge goSecond)) ++ lit ", "
        else [])
    ++ (if t.SMaxAge ≠ 0 then
          lit "s-max-age=" ++ intToStr (durSecondsInt (durRound t.SMaxAge goSecond)) ++ lit ", "
        else [])
    ++ (if t.NoCache then lit "no-cache, " else [])
    ++ (if t.NoStore then lit "no-store, " else [])
    ++ (if t.MustRevalidate then lit "must-revalidate, " else [])
    ++ (if t.ProxyRevalidate then lit "proxy-revalidate, " else [])
    ++ (if t.MustUnderstand then lit "must-understand, " else [])
    ++ (if t.NoTransform then lit "no-transform, " else [])
    ++ (if t.Immutable then lit "immutable, " else [])
  if v.length < 2 then [] else v.take (v.length - 2)

end caching

/-- Join strings with a separator, as the specification's "joined by a
comma and space". -/
def joinSep (sep : Str) : List Str → Str
  | [] => []
  | [x] => x
  | x :: y :: t => x ++ sep ++ joinSep sep (y :: t)

/-- Directive tokens of a caching.Options value in the fixed documented
order, each present exactly when set, written following the specification's
enumeration in section 4.6. -/
def cacheDirectiveTokens (t : caching.Options) : List Str :=
  (if t.Access ≠ [] then [t.Access] else [])
  ++ (if t.MaxAge ≠ 0 then
        [lit "max-age=" ++ intToStr (durSecondsInt (durRound t.MaxAge goSecond))]
      else [])
  ++ (if t.SMaxAge ≠ 0 then
        [lit "s-max-age=" ++ intToStr (durSecondsInt (durRound t.SMaxAge goSecond))]
      else [])
  ++ (if t.NoCache then [lit "no-cache"] else [])
  ++ (if t.NoStore then [lit "no-store"] else [])
  ++ (if t.MustRevalidate then [lit "must-revalidate"] else [])
  ++ (if t.ProxyRevalidate then [lit "proxy-revalidate"] else [])
  ++ (if t.MustUnderstand then [lit "must-understand"] else [])
  ++ (if t.NoTransform then [lit "no-transform"] else [])
  ++ (if t.Immutable then [lit "immutable"] else [])

/-- Normalisation the specification applies to each accepted token: lowercase
and trim. -/
def normToken (s : Str) : Str := goTrimSpace (goToLower s)

/-- Encoding negotiation as the specification words it: the subset of the
available encodings whose token appears anywhere in the parsed accepted
list, in server-preference order. -/
def specNegotiate (acceptHeader : Str) (available : List Str) : List Str :=
  available.filter (fun a => ((goSplitComma acceptHeader).map normToken).contains a)

/-- Concatenation of tokens each followed by the separator, the shape the
strings.Builder in BuildHeaderValues accumulates before the final cut. -/
def trailJoin (ts : List Str) : Str :=
  ts.foldr (fun x acc => x ++ lit ", " ++ acc) []

theorem charLt_iff (a b : Char) : charLt a b = true ↔ a.toNat < b.toNat := by
  simp [charLt]

theorem charLt_self (a : Char) : charLt a a = false := by
  simp [charLt]

theorem strLe_refl (s : Str) : strLe s s = true := by
  induction s with
  | nil => rfl
  | cons a t ih => simp [strLe, charLt_self, ih]

theorem strLe_total : ∀ a b : Str, strLe a b = true ∨ strLe b a = true
  | [], _ => Or.inl rfl
  | _ :: _, [] => Or.inr rfl
  | a :: sa, b :: sb => by
    by_cases h1 : charLt a b = true
    · exact Or.inl (by simp [strLe, h1])
    · by_cases h2 : charLt b a = true
      · exact Or.inr (by simp [strLe, h2])
      · rcases strLe_total sa sb with h | h
        · exact Or.inl (by simp [strLe, h1, h2, h])
        · exact Or.inr (by simp [strLe, h1, h2, h])

theorem strLe_step_iff (a b : Char) (sa sb : Str) :
    strLe (a :: sa) (b :: sb) = true ↔
      a.toNat < b.toNat ∨ (a.toNat = b.toNat ∧ strLe sa sb = true) := by
  simp only [strLe]
  by_cases hab : charLt a b = true
  · simp [hab, (charLt_iff a b).mp hab]
  · by_cases hba : charLt b a = true
    · have h1 := (charLt_iff b a).mp hba
      simp only [Bool.not_eq_true] at hab
      simp [hab, hba]
      omega
    · simp only [Bool.not_eq_true] at hab hba
      have hn1 : ¬ a.toNat < b.toNat := by simpa [charLt] using hab
      have hn2 : ¬ b.toNat < a.toNat := by simpa [charLt] using hba
      simp only [hab, hba, if_false]
      constructor
      · intro h; exact Or.inr ⟨by omega, h⟩
      · rintro (h | ⟨_, h⟩)
        · exact absurd h hn1
        · exact h

theorem strLe_trans : ∀ a b c : Str, strLe a b = true → strLe b c = true → strLe a c = true
  | [], _, _ => fun _ _ => rfl
  | _ :: _, [], _ => fun h _ => by cases h
  | _ :: _, _ :: _, [] => fun _ h => by cases h
  | a :: sa, b :: sb, c :: sc => fun h1 h2 => by
    rw [strLe_step_iff] at h1 h2 ⊢
    rcases h1 with h1 | ⟨h1, h1'⟩ <;> rcases h2 with h2 | ⟨h2, h2'⟩
    · exact Or.inl (by omega)
    · exact Or.inl (by omega)
    · exact Or.inl (by omega)
    · exact Or.inr ⟨by omega, strLe_trans sa sb sc h1' h2'⟩

theorem goHasPfx_iff : ∀ (s p : Str), goHasPfx s p = true ↔ ∃ t, s = p ++ t
  | s, [] => by
    constructor
    · intro _; exact ⟨s, rfl⟩
    · intro _; cases s <;> rfl
  | [], a :: ps => by
    simp [goHasPfx]
  | c :: s, a :: ps => by
    simp only [goHasPfx, Bool.and_eq_true, beq_iff_eq, goHasPfx_iff s ps]
    constructor
    · rintro ⟨rfl, t, rfl⟩; exact ⟨t, rfl⟩
    · rintro ⟨t, ht⟩
      rw [List.cons_append] at ht
      injection ht with h1 h2
      exact ⟨h1, t, h2⟩

theorem pfx_len_le {s p : Str} (h : goHasPfx s p = true) : p.length ≤ s.length := by
  obtain ⟨t, rfl⟩ := (goHasPfx_iff s p).mp h
  simp

theorem pfx_strLe {a b : Str} (h : goHasPfx b a = true) : strLe a b = true := by
  obtain ⟨t, rfl⟩ := (goHasPfx_iff b a).mp h
  clear h
  induction a with
  | nil => rfl
  | cons c ca ih =>
    rw [List.cons_append, strLe_step_iff]
    exact Or.inr ⟨rfl, ih⟩

theorem strict_pfx_not_strLe : ∀ (a : Str) (c : Char) (t : Str), strLe (a ++ c :: t) a = false
  | [], _, _ => rfl
  | x :: xa, c, t => by
    rw [List.cons_append]
    by_cases h : strLe (x :: (xa ++ c :: t)) (x :: xa) = true
    · rw [strLe_step_iff] at h
      rcases h with h | ⟨_, h⟩
      · omega
      · rw [strict_pfx_not_strLe xa c t] at h; cases h
    · simpa using h

theorem pfx_comparable : ∀ (s p q : Str), goHasPfx s p = true → goHasPfx s q = true →
    goHasPfx q p = true ∨ goHasPfx p q = true
  | _, [], _ => fun _ _ => Or.inl (by cases ‹Str› <;> rfl)
  | _, _ :: _, [] => fun _ _ => Or.inr rfl
  | [], _ :: _, _ => fun h _ => by cases h
  | c :: s, a :: pa, b :: qb => fun h1 h2 => by
    simp only [goHasPfx, Bool.and_eq_true, beq_iff_eq] at h1 h2 ⊢
    obtain ⟨rfl, h1⟩ := h1
    obtain ⟨rfl, h2⟩ := h2
    rcases pfx_comparable s pa qb h1 h2 with h | h
    · exact Or.inl ⟨rfl, h⟩
    · exact Or.inr ⟨rfl, h⟩

theorem strLe_pfx_len {path q r : Str} (hq : goHasPfx path q = true)
    (hr : goHasPfx path r = true) (h : strLe q r = true) : q.length ≤ r.length := by
  rcases pfx_comparable path r q hr hq with hc | hc
  · obtain ⟨t, rfl⟩ := (goHasPfx_iff q r).mp hc
    cases t with
    | nil => simp
    | cons c t' => rw [strict_pfx_not_strLe r c t'] at h; cases h
  · exact pfx_len_le hc

theorem mem_insertSorted (x y : Str) : ∀ l : List Str, y ∈ insertSorted x l ↔ y = x ∨ y ∈ l
  | [] => by simp [insertSorted]
  | z :: zs => by
    simp only [insertSorted]
    by_cases h : strLe x z = true
    · rw [if_pos h]
      simp only [List.mem_cons]
    · rw [if_neg h]
      simp only [List.mem_cons, mem_insertSorted x y zs]
      tauto

theorem pairwise_insertSorted (x : Str) :
    ∀ l : List Str, l.Pairwise (fun a b => strLe a b = true) →
      (insertSorted x l).Pairwise (fun a b => strLe a b = true)
  | [], _ => by simp [insertSorted]
  | z :: zs, hp => by
    rw [List.pairwise_cons] at hp
    obtain ⟨hz, hzs⟩ := hp
    simp only [insertSorted]
    by_cases h : strLe x z = true
    · rw [if_pos h]
      rw [List.pairwise_cons]
      constructor
      · intro b hb
        rcases List.mem_cons.mp hb with rfl | hb
        · exact h
        · exact strLe_trans x z b h (hz b hb)
      · exact List.pairwise_cons.mpr ⟨hz, hzs⟩
    · rw [if_neg h]
      rw [List.pairwise_cons]
      constructor
      · intro b hb
        rcases (mem_insertSorted x b zs).mp hb with heq | hb
        · rw [heq]
          rcases strLe_total x z with h' | h'
          · exact absurd h' h
          · exact h'
        · exact hz b hb
      · exact pairwise_insertSorted x zs hzs

theorem mem_sortStrs (y : Str) : ∀ l : List Str, y ∈ sortStrs l ↔ y ∈ l
  | [] => by simp [sortStrs]
  | x :: xs => by
    simp only [sortStrs, List.foldr_cons]
    rw [show List.foldr insertSorted [] xs = sortStrs xs from rfl]
    rw [mem_insertSorted x y (sortStrs xs), mem_sortStrs y xs]
    simp

theorem pairwise_sortStrs : ∀ l : List Str, (sortStrs l).Pairwise (fun a b => strLe a b = true)
  | [] => by simp [sortStrs]
  | x :: xs => by
    simp only [sortStrs, List.foldr_cons]
    exact pairwise_insertSorted x _ (pairwise_sortStrs xs)

theorem zip_self_map {α β : Type} (g : α → β) :
    ∀ l : List α, l.zip (l.map g) = l.map (fun k => (k, g k))
  | [] => rfl
  | x :: xs => by
    simp only [List.map_cons, List.zip_cons_cons]
    rw [zip_self_map g xs]

theorem matchPathAux_descending (path : Str) (g : Str → Str) :
    ∀ ks : List Str, ks.Pairwise (fun a b => strLe b a = true) →
      (∃ q ∈ ks, goHasPfx path q = true) →
      ∃ r ∈ ks, goHasPfx path r = true ∧
        (∀ s ∈ ks, goHasPfx path s = true → strLe s r = true) ∧
        matchPathAux path (ks.map (fun k => (k, g k))) = (g r ++ path.drop r.length, true)
  | [], _, hex => absurd hex (by simp)
  | k :: ks, hp, hex => by
    rw [List.pairwise_cons] at hp
    obtain ⟨hk, hks⟩ := hp
    by_cases hm : goHasPfx path k = true
    · refine ⟨k, List.mem_cons_self k ks, hm, ?_, ?_⟩
      · intro s hs hsp
        rcases List.mem_cons.mp hs with heq | hs
        · rw [heq]; exact strLe_refl k
        · exact hk s hs
      · simp only [List.map_cons, matchPathAux]
        rw [if_pos hm]
    · have hex' : ∃ q ∈ ks, goHasPfx path q = true := by
        obtain ⟨q, hq, hqp⟩ := hex
        rcases List.mem_cons.mp hq with heq | hq
        · rw [heq] at hqp; exact absurd hqp hm
        · exact ⟨q, hq, hqp⟩
      obtain ⟨r, hr, hrp, hmax, heval⟩ := matchPathAux_descending path g ks hks hex'
      refine ⟨r, List.mem_cons_of_mem k hr, hrp, ?_, ?_⟩
      · intro s hs hsp
        rcases List.mem_cons.mp hs with heq | hs
        · rw [heq] at hsp; exact absurd hsp hm
        · exact hmax s hs hsp
      · simp only [List.map_cons, matchPathAux]
        rw [if_neg hm]
        exact heval

/-- C1: longest-registered-prefix wins.  Concretely, with mappings
"/css" to "/ui/css" and "/css/img" to "/ui/img", the request path
"/css/img/logo.gif" resolves to "/ui/img/logo.gif"; in general, whenever
some registered prefix matches the request path, matchPath substitutes the
target of a matching registered prefix that is at least as long as every
matching registered prefix (so the longer of two nested matching prefixes,
and in particular the longest, wins) and preserves the remainder of the
path. -/
theorem c1_longest_registered_prefix_wins :
    (matchPath (lit "/css/img/logo.gif")
        (parsePathMap [(lit "/css", lit "/ui/css"), (lit "/css/img", lit "/ui/img")]).1
        (parsePathMap [(lit "/css", lit "/ui/css"), (lit "/css/img", lit "/ui/img")]).2
      = (lit "/ui/img/logo.gif", true)) ∧
    ∀ (m : List (Str × Str)) (path : Str),
      (∃ q ∈ m.map Prod.fst, goHasPfx path q = true) →
      ∃ r ∈ m.map Prod.fst, goHasPfx path r = true ∧
        (∀ q ∈ m.map Prod.fst, goHasPfx path q = true → q.length ≤ r.length) ∧
        matchPath path (parsePathMap m).1 (parsePathMap m).2
          = (mapGet m r ++ path.drop r.length, true) := by
  constructor
  · decide
  · intro m path hex
    have hpair := pairwise_sortStrs (m.map Prod.fst)
    have hrev : (sortStrs (m.map Prod.fst)).reverse.Pairwise (fun a b => strLe b a = true) :=
      List.pairwise_reverse.mpr hpair
    have hex' : ∃ q ∈ (sortStrs (m.map Prod.fst)).reverse, goHasPfx path q = true := by
      obtain ⟨q, hq, hqp⟩ := hex
      exact ⟨q, List.mem_reverse.mpr ((mem_sortStrs q (m.map Prod.fst)).mpr hq), hqp⟩
    obtain ⟨r, hr, hrp, hmax, heval⟩ :=
      matchPathAux_descending path (fun k => mapGet m k)
        (sortStrs (m.map Prod.fst)).reverse hrev hex'
    have hrkeys : r ∈ m.map Prod.fst :=
      (mem_sortStrs r (m.map Prod.fst)).mp (List.mem_reverse.mp hr)
    refine ⟨r, hrkeys, hrp, ?_, ?_⟩
    · intro q hq hqp
      have hqrev : q ∈ (sortStrs (m.map Prod.fst)).reverse :=
        List.mem_reverse.mpr ((mem_sortStrs q (m.map Prod.fst)).mpr hq)
      exact strLe_pfx_len hqp hrp (hmax q hqrev hqp)
    · simp only [parsePathMap, matchPath]
      rw [zip_self_map]
      rw [← List.map_reverse]
      exact heval

/-- Witness for C1 at the documented two-entry mapping table. -/
theorem c1_longest_registered_prefix_wins_witness :
    ∃ r ∈ ([(lit "/css", lit "/ui/css"), (lit "/css/img", lit "/ui/img")].map Prod.fst),
      goHasPfx (lit "/css/img/logo.gif") r = true ∧
      (∀ q ∈ ([(lit "/css", lit "/ui/css"), (lit "/css/img", lit "/ui/img")].map Prod.fst),
        goHasPfx (lit "/css/img/logo.gif") q = true → q.length ≤ r.length) ∧
      matchPath (lit "/css/img/logo.gif")
          (parsePathMap [(lit "/css", lit "/ui/css"), (lit "/css/img", lit "/ui/img")]).1
          (parsePathMap [(lit "/css", lit "/ui/css"), (lit "/css/img", lit "/ui/img")]).2
        = (mapGet [(lit "/css", lit "/ui/css"), (lit "/css/img", lit "/ui/img")] r
            ++ (lit "/css/img/logo.gif").drop r.length, true) :=
  c1_longest_registered_prefix_wins.2 _ _ ⟨lit "/css", by decide, by decide⟩

theorem openEncoded_all_fail (dir : DirFn) (p : Str) :
    ∀ encs : List Str, (∀ x ∈ encs, ∃ msg, dir (p ++ lit "." ++ x) = .error msg) →
      openEncoded dir p encs
        = (match dir p with | .ok f => .ok (f, ([] : Str)) | .error e => .error e)
  | [], _ => rfl
  | x :: xs, h => by
    obtain ⟨msg, hmsg⟩ := h x (List.mem_cons_self x xs)
    simp only [openEncoded, hmsg]
    exact openEncoded_all_fail dir p xs (fun y hy => h y (List.mem_cons_of_mem x hy))

theorem openEncoded_first_ok (dir : DirFn) (p e : Str) (f : GoFile) (post : List Str)
    (hok : dir (p ++ lit "." ++ e) = .ok f) :
    ∀ pre : List Str, (∀ x ∈ pre, ∃ msg, dir (p ++ lit "." ++ x) = .error msg) →
      openEncoded dir p (pre ++ e :: post) = .ok (f, e)
  | [], _ => by simp only [List.nil_append, openEncoded, hok]
  | x :: xs, h => by
    obtain ⟨msg, hmsg⟩ := h x (List.mem_cons_self x xs)
    simp only [List.cons_append, openEncoded, hmsg]
    exact openEncoded_first_ok dir p e f post hok xs
      (fun y hy => h y (List.mem_cons_of_mem x hy))

/-- C6: compressionDir.Open tries the path suffixed with a dot and each
candidate encoding token in list order, returning the first success with
that encoding tag; if every suffixed attempt fails it opens the plain path,
returning it with an empty tag on success; and if that also fails the error
returned is exactly the error of the final unsuffixed attempt, all
intermediate variant errors being discarded. -/
theorem c6_open_encoded_variants :
    (∀ (dir : DirFn) (p e : Str) (pre post : List Str) (f : GoFile),
      (∀ x ∈ pre, ∃ msg, dir (p ++ lit "." ++ x) = .error msg) →
      dir (p ++ lit "." ++ e) = .ok f →
      CompressionDir.Open ⟨dir, pre ++ e :: post⟩ p = .ok (f, e)) ∧
    (∀ (dir : DirFn) (p : Str) (encs : List Str) (f : GoFile),
      (∀ x ∈ encs, ∃ msg, dir (p ++ lit "." ++ x) = .error msg) →
      dir p = .ok f →
      CompressionDir.Open ⟨dir, encs⟩ p = .ok (f, [])) ∧
    (∀ (dir : DirFn) (p : Str) (encs : List Str) (err : Str),
      (∀ x ∈ encs, ∃ msg, dir (p ++ lit "." ++ x) = .error msg) →
      dir p = .error err →
      CompressionDir.Open ⟨dir, encs⟩ p = .error err) := by
  refine ⟨?_, ?_, ?_⟩
  · intro dir p e pre post f hfail hok
    exact openEncoded_first_ok dir p e f post hok pre hfail
  · intro dir p encs f hfail hok
    show openEncoded dir p encs = _
    rw [openEncoded_all_fail dir p encs hfail, hok]
  · intro dir p encs err hfail herr
    show openEncoded dir p encs = _
    rw [openEncoded_all_fail dir p encs hfail, herr]

/-- Witness for C6: a two-candidate list where the brotli variant fails and
the gzip variant opens; a singleton list where the variant fails and the
plain file opens; and a singleton list where everything fails and the plain
error is surfaced. -/
theorem c6_open_encoded_variants_witness :
    CompressionDir.Open
        ⟨fun q => if q = lit "f.gzip" then .ok ⟨.ok ⟨false⟩⟩ else .error (lit "e1"),
          [lit "br", lit "gzip"]⟩ (lit "f")
      = .ok (⟨.ok ⟨false⟩⟩, lit "gzip") ∧
    CompressionDir.Open
        ⟨fun q => if q = lit "f" then .ok ⟨.ok ⟨false⟩⟩ else .error (lit "e1"),
          [lit "br"]⟩ (lit "f")
      = .ok (⟨.ok ⟨false⟩⟩, []) ∧
    CompressionDir.Open
        ⟨fun q => if q = lit "f" then .error (lit "plain gone") else .error (lit "e1"),
          [lit "br"]⟩ (lit "f")
      = .error (lit "plain gone") := by
  refine ⟨?_, ?_, ?_⟩
  · exact c6_open_encoded_variants.1 _ (lit "f") (lit "gzip") [lit "br"] [] _
      (by intro x hx; simp only [List.mem_singleton] at hx; subst hx
          exact ⟨lit "e1", by decide⟩)
      (by decide)
  · exact c6_open_encoded_variants.2.1 _ (lit "f") [lit "br"] _
      (by intro x hx; simp only [List.mem_singleton] at hx; subst hx
          exact ⟨lit "e1", by decide⟩)
      (by decide)
  · exact c6_open_encoded_variants.2.2 _ (lit "f") [lit "br"] (lit "plain gone")
      (by intro x hx; simp only [List.mem_singleton] at hx; subst hx
          exact ⟨lit "e1", by decide⟩)
      (by decide)

/-- C7: Merge lets every set (non-default) field of the second option set
win and keeps the first set's value for every unset field, field by field;
and a left fold of Merge over a sequence applies the last option set on top
of the fold of the rest, so each later set overrides exactly the fields it
sets. -/
theorem c7_merge_field_override :
    (∀ A B : ServerOptions,
      (B.RootPath ≠ [] → (A.Merge B).RootPath = B.RootPath) ∧
      (B.RootPath = [] → (A.Merge B).RootPath = A.RootPath) ∧
      (B.IndexFile ≠ [] → (A.Merge B).IndexFile = B.IndexFile) ∧
      (B.IndexFile = [] → (A.Merge B).IndexFile = A.IndexFile) ∧
      (B.CatchAllFile ≠ [] → (A.Merge B).CatchAllFile = B.CatchAllFile) ∧
      (B.CatchAllFile = [] → (A.Merge B).CatchAllFile = A.CatchAllFile) ∧
      (B.Allow.isSome = true → (A.Merge B).Allow = B.Allow) ∧
      (B.Allow = none → (A.Merge B).Allow = A.Allow) ∧
      (B.Compression.isSome = true → (A.Merge B).Compression = B.Compression) ∧
      (B.Compression = none → (A.Merge B).Compression = A.Compression) ∧
      (B.FS.isSome = true → (A.Merge B).FS = B.FS) ∧
      (B.FS = none → (A.Merge B).FS = A.FS)) ∧
    ∀ (d X : ServerOptions) (ds : List ServerOptions),
      List.foldl ServerOptions.Merge d (ds ++ [X])
        = ServerOptions.Merge (List.foldl ServerOptions.Merge d ds) X := by
  constructor
  · intro A B
    refine ⟨?_, ?_, ?_, ?_, ?_, ?_, ?_, ?_, ?_, ?_, ?_, ?_⟩ <;> intro h <;>
      simp [ServerOptions.Merge, h,
        apply_ite ServerOptions.RootPath, apply_ite ServerOptions.IndexFile,
        apply_ite ServerOptions.CatchAllFile, apply_ite ServerOptions.Allow,
        apply_ite ServerOptions.Compression, apply_ite ServerOptions.FS]
  · intro d X ds
    simp [List.foldl_append]

/-- Witness for C7 at a concrete pair of option sets and a concrete fold. -/
theorem c7_merge_field_override_witness :
    (ServerOptions.Merge
        { RootPath := lit "/a", IndexFile := lit "i", Allow := some (fun _ => true),
          Compression := some [lit "br"], FS := some 1 }
        { RootPath := lit "/b", CatchAllFile := lit "c" }).RootPath = lit "/b" ∧
    (ServerOptions.Merge
        { RootPath := lit "/a", IndexFile := lit "i", Allow := some (fun _ => true),
          Compression := some [lit "br"], FS := some 1 }
        { RootPath := lit "/b", CatchAllFile := lit "c" }).IndexFile = lit "i" ∧
    (ServerOptions.Merge
        { RootPath := lit "/a", IndexFile := lit "i", Allow := some (fun _ => true),
          Compression := some [lit "br"], FS := some 1 }
        { RootPath := lit "/b", CatchAllFile := lit "c" }).CatchAllFile = lit "c" ∧
    (ServerOptions.Merge
        { RootPath := lit "/a", IndexFile := lit "i", Allow := some (fun _ => true),
          Compression := some [lit "br"], FS := some 1 }
        { RootPath := lit "/b", CatchAllFile := lit "c" }).Compression = some [lit "br"] ∧
    (ServerOptions.Merge
        { RootPath := lit "/a", IndexFile := lit "i", Allow := some (fun _ => true),
          Compression := some [lit "br"], FS := some 1 }
        { RootPath := lit "/b", CatchAllFile := lit "c" }).FS = some 1 ∧
    List.foldl ServerOptions.Merge {}
        ([{ RootPath := lit "/a" }] ++ [{ IndexFile := lit "i" }])
      = ServerOptions.Merge (List.foldl ServerOptions.Merge {} [{ RootPath := lit "/a" }])
          { IndexFile := lit "i" } := by
  have h := c7_merge_field_override
  refine ⟨(h.1 _ _).1 (by decide), (h.1 _ _).2.2.2.1 rfl, (h.1 _ _).2.2.2.2.1 (by decide),
    ?_, ?_, h.2 {} { IndexFile := lit "i" } [{ RootPath := lit "/a" }]⟩
  · exact (h.1 _ _).2.2.2.2.2.2.2.2.2.1 rfl
  · exact (h.1 _ _).2.2.2.2.2.2.2.2.2.2.2 rfl

theorem trailJoin_append : ∀ xs ys : List Str, trailJoin (xs ++ ys) = trailJoin xs ++ trailJoin ys
  | [], ys => rfl
  | x :: xs, ys => by
    simp only [trailJoin, List.cons_append, List.foldr_cons]
    rw [show List.foldr (fun x acc => x ++ lit ", " ++ acc) [] (xs ++ ys) = trailJoin (xs ++ ys)
          from rfl,
        trailJoin_append xs ys]
    simp [trailJoin, List.append_assoc]

theorem trailJoin_single_if (C : Prop) [Decidable C] (x : Str) :
    trailJoin (if C then [x] else []) = if C then x ++ lit ", " else [] := by
  split <;> simp [trailJoin]

theorem trailJoin_eq_joinSep : ∀ ts : List Str, ts ≠ [] →
    trailJoin ts = joinSep (lit ", ") ts ++ lit ", "
  | [], h => absurd rfl h
  | [x], _ => by simp [trailJoin, joinSep]
  | x :: y :: t, _ => by
    have ih := trailJoin_eq_joinSep (y :: t) (by simp)
    simp only [trailJoin, List.foldr_cons] at ih ⊢
    rw [ih]
    simp [joinSep, List.append_assoc]

theorem joinSep_ne_nil (sep : Str) : ∀ ts : List Str, ts ≠ [] → (∀ x ∈ ts, x ≠ []) →
    joinSep sep ts ≠ []
  | [], h, _ => absurd rfl h
  | [x], _, hx => by simpa [joinSep] using hx x (by simp)
  | x :: y :: t, _, hx => by
    simp only [joinSep]
    intro hcon
    rcases List.append_eq_nil.mp hcon with ⟨h1, _⟩
    rcases List.append_eq_nil.mp h1 with ⟨h2, _⟩
    exact hx x (by simp) h2

theorem bv_eq_joinSep (t : caching.Options) :
    t.BuildHeaderValues = joinSep (lit ", ") (cacheDirectiveTokens t) := by
  have hv : (if t.Access ≠ [] then t.Access ++ lit ", " else [])
      ++ (if t.MaxAge ≠ 0 then
            lit "max-age=" ++ intToStr (durSecondsInt (durRound t.MaxAge goSecond)) ++ lit ", "
          else [])
      ++ (if t.SMaxAge ≠ 0 then
            lit "s-max-age=" ++ intToStr (durSecondsInt (durRound t.SMaxAge goSecond)) ++ lit ", "
          else [])
      ++ (if t.NoCache then lit "no-cache, " else [])
      ++ (if t.NoStore then lit "no-store, " else [])
      ++ (if t.MustRevalidate then lit "must-revalidate, " else [])
      ++ (if t.ProxyRevalidate then lit "proxy-revalidate, " else [])
      ++ (if t.MustUnderstand then lit "must-understand, " else [])
      ++ (if t.NoTransform then lit "no-transform, " else [])
      ++ (if t.Immutable then lit "immutable, " else [])
      = trailJoin (cacheDirectiveTokens t) := by
    simp only [cacheDirectiveTokens, trailJoin_append, trailJoin_single_if]
    have e1 : lit "no-cache" ++ lit ", " = lit "no-cache, " := by decide
    have e2 : lit "no-store" ++ lit ", " = lit "no-store, " := by decide
    have e3 : lit "must-revalidate" ++ lit ", " = lit "must-revalidate, " := by decide
    have e4 : lit "proxy-revalidate" ++ lit ", " = lit "proxy-revalidate, " := by decide
    have e5 : lit "must-understand" ++ lit ", " = lit "must-understand, " := by decide
    have e6 : lit "no-transform" ++ lit ", " = lit "no-transform, " := by decide
    have e7 : lit "immutable" ++ lit ", " = lit "immutable, " := by decide
    rw [e1, e2, e3, e4, e5, e6, e7]
  show (if ((if t.Access ≠ [] then t.Access ++ lit ", " else [])
      ++ (if t.MaxAge ≠ 0 then
            lit "max-age=" ++ intToStr (durSecondsInt (durRound t.MaxAge goSecond)) ++ lit ", "
          else [])
      ++ (if t.SMaxAge ≠ 0 then
            lit "s-max-age=" ++ intToStr (durSecondsInt (durRound t.SMaxAge goSecond)) ++ lit ", "
          else [])
      ++ (if t.NoCache then lit "no-cache, " else [])
      ++ (if t.NoStore then lit "no-store, " else [])
      ++ (if t.MustRevalidate then lit "must-revalidate, " else [])
      ++ (if t.ProxyRevalidate then lit "proxy-revalidate, " else [])
      ++ (if t.MustUnderstand then lit "must-understand, " else [])
      ++ (if t.NoTransform then lit "no-transform, " else [])
      ++ (if t.Immutable then lit "immutable, " else [])).length < 2 then []
    else _) = _
  rw [hv]
  rcases hts : cacheDirectiveTokens t with _ | ⟨x, xs⟩
  · simp [trailJoin, joinSep]
  · rw [← hts]
    have hne : cacheDirectiveTokens t ≠ [] := by rw [hts]; simp
    rw [trailJoin_eq_joinSep _ hne]
    have hlen : (joinSep (lit ", ") (cacheDirectiveTokens t) ++ lit ", ").length
        = (joinSep (lit ", ") (cacheDirectiveTokens t)).length + 2 := by
      simp [List.length_append, lit]
    rw [hlen]
    rw [if_neg (by omega)]
    have : (joinSep (lit ", ") (cacheDirectiveTokens t)).length + 2 - 2
        = (joinSep (lit ", ") (cacheDirectiveTokens t)).length := by omega
    rw [this]
    exact List.take_left _ _

theorem if_single_nil (C : Prop) [Decidable C] (x : Str) :
    ((if C then [x] else ([] : List Str)) = []) ↔ ¬C := by
  split <;> simp_all

theorem cacheTokens_nil_iff (t : caching.Options) :
    cacheDirectiveTokens t = [] ↔
      (t.Access = [] ∧ t.MaxAge = 0 ∧ t.SMaxAge = 0 ∧ t.NoCache = false ∧
       t.NoStore = false ∧ t.MustRevalidate = false ∧ t.ProxyRevalidate = false ∧
       t.MustUnderstand = false ∧ t.NoTransform = false ∧ t.Immutable = false) := by
  simp only [cacheDirectiveTokens, List.append_eq_nil, if_single_nil]
  simp [not_not, and_assoc]

theorem cacheTokens_elt_ne_nil (t : caching.Options) :
    ∀ x ∈ cacheDirectiveTokens t, x ≠ [] := by
  intro x hx
  have handle : ∀ (C : Prop) (inst : Decidable C) (tok : Str), (C → tok ≠ []) →
      x ∈ (if C then [tok] else []) → x ≠ [] := by
    intro C inst tok htok hm
    by_cases hC : C
    · rw [if_pos hC] at hm
      simp only [List.mem_singleton] at hm
      rw [hm]
      exact htok hC
    · rw [if_neg hC] at hm
      simp at hm
  simp only [cacheDirectiveTokens, List.mem_append] at hx
  rcases hx with ((((((((h | h) | h) | h) | h) | h) | h) | h) | h) | h
  · exact handle _ _ _ (fun hC => hC) h
  · exact handle _ _ _ (fun _ hcon => absurd ((List.append_eq_nil.mp hcon).1) (by decide)) h
  · exact handle _ _ _ (fun _ hcon => absurd ((List.append_eq_nil.mp hcon).1) (by decide)) h
  · exact handle _ _ _ (fun _ => by decide) h
  · exact handle _ _ _ (fun _ => by decide) h
  · exact handle _ _ _ (fun _ => by decide) h
  · exact handle _ _ _ (fun _ => by decide) h
  · exact handle _ _ _ (fun _ => by decide) h
  · exact handle _ _ _ (fun _ => by decide) h
  · exact handle _ _ _ (fun _ => by decide) h

/-- C2: BuildHeaderValues is empty exactly when every Options field is
unset, and for any Options it equals the set directives, in the fixed order
access token, max-age, s-max-age, no-cache, no-store, must-revalidate,
proxy-revalidate, must-understand, no-transform, immutable, joined by a
comma and space, with durations rounded to whole seconds and every
zero/false/empty directive omitted (cacheDirectiveTokens). -/
theorem c2_build_header_values :
    ∀ t : caching.Options,
      (t.BuildHeaderValues = [] ↔
        (t.Access = [] ∧ t.MaxAge = 0 ∧ t.SMaxAge = 0 ∧ t.NoCache = false ∧
         t.NoStore = false ∧ t.MustRevalidate = false ∧ t.ProxyRevalidate = false ∧
         t.MustUnderstand = false ∧ t.NoTransform = false ∧ t.Immutable = false)) ∧
      t.BuildHeaderValues = joinSep (lit ", ") (cacheDirectiveTokens t) := by
  intro t
  have hbv := bv_eq_joinSep t
  refine ⟨?_, hbv⟩
  rw [hbv, ← cacheTokens_nil_iff]
  constructor
  · intro h
    by_cases hts : cacheDirectiveTokens t = []
    · exact hts
    · exact absurd h (joinSep_ne_nil _ _ hts (cacheTokens_elt_ne_nil t))
  · intro h
    rw [h]
    rfl

/-- Witness for C2 at a concrete populated Options value and the empty
Options value. -/
theorem c2_build_header_values_witness :
    ((caching.Options.BuildHeaderValues
        { Access := lit "public", MaxAge := 1500000000, NoCache := true } = []) ↔
      (lit "public" = ([] : Str) ∧ (1500000000 : Int) = 0 ∧ (0 : Int) = 0 ∧ true = false ∧
       false = false ∧ false = false ∧ false = false ∧ false = false ∧ false = false ∧
       false = false)) ∧
    caching.Options.BuildHeaderValues
        { Access := lit "public", MaxAge := 1500000000, NoCache := true }
      = joinSep (lit ", ")
          (cacheDirectiveTokens { Access := lit "public", MaxAge := 1500000000, NoCache := true }) :=
  c2_build_header_values { Access := lit "public", MaxAge := 1500000000, NoCache := true }

theorem wrap64_eq_self {x : Int} (h1 : -9223372036854775808 ≤ x)
    (h2 : x < 9223372036854775808) : wrap64 x = x := by
  unfold wrap64
  rw [Int.emod_eq_of_lt (by omega) (by omega)]
  omega

theorem durRound_small {d : Int} (hsmall : d.natAbs < 500000000) :
    durRound d goSecond = 0 := by
  have hb1 : -500000000 < d := by omega
  have hb2 : d < 500000000 := by omega
  have hm : ¬ (goSecond ≤ 0) := by norm_num [goSecond]
  unfold durRound
  rw [if_neg hm]
  by_cases hd : d < 0
  · rw [if_pos hd]
    have hrem : goRem d goSecond = d := by
      unfold goRem
      rw [if_pos hd, Int.emod_eq_of_lt (by omega) (by norm_num [goSecond]; omega)]
      omega
    rw [hrem]
    have hlh : lessThanHalf (-d) goSecond = true := by
      unfold lessThanHalf
      rw [wrap64_eq_self (by omega) (by omega)]
      simp only [decide_eq_true_eq, goSecond]
      omega
    rw [if_pos hlh, wrap64_eq_self (by omega) (by omega)]
    omega
  · rw [if_neg hd]
    have hrem : goRem d goSecond = d := by
      unfold goRem
      rw [if_neg hd, Int.emod_eq_of_lt (by omega) (by norm_num [goSecond]; omega)]
    rw [hrem]
    have hlh : lessThanHalf d goSecond = true := by
      unfold lessThanHalf
      rw [wrap64_eq_self (by omega) (by omega)]
      simp only [decide_eq_true_eq, goSecond]
      omega
    rw [if_pos hlh, wrap64_eq_self (by omega) (by omega)]
    omega

theorem goContains_nil : ∀ s : Str, goContains s [] = true
  | [] => rfl
  | _ :: _ => by simp [goContains, goHasPfx]

theorem goHasPfx_append (x t : Str) : goHasPfx (x ++ t) x = true :=
  (goHasPfx_iff _ _).mpr ⟨t, rfl⟩

theorem goContains_parts : ∀ (pre x post : Str), goContains (pre ++ (x ++ post)) x = true
  | [], x, post => by
    cases x with
    | nil => exact goContains_nil _
    | cons c xs =>
      have h := goHasPfx_append (c :: xs) post
      simp only [List.cons_append] at h ⊢
      simp [goContains, h]
  | c :: pre, x, post => by
    show (goHasPfx (c :: (pre ++ (x ++ post))) x || goContains (pre ++ (x ++ post)) x) = true
    rw [goContains_parts pre x post, Bool.or_true]

theorem joinSep_mem_decomp (sep : Str) :
    ∀ (ts : List Str) (x : Str), x ∈ ts → ∃ pre post, joinSep sep ts = pre ++ (x ++ post)
  | [], x, h => absurd h (by simp)
  | [y], x, h => by
    simp only [List.mem_singleton] at h
    subst h
    exact ⟨[], [], by simp [joinSep]⟩
  | y :: z :: t, x, h => by
    rcases List.mem_cons.mp h with heq | h
    · subst heq
      exact ⟨[], sep ++ joinSep sep (z :: t), by simp [joinSep, List.append_assoc]⟩
    · obtain ⟨pre, post, hp⟩ := joinSep_mem_decomp sep (z :: t) x h
      exact ⟨y ++ sep ++ pre, post, by simp [joinSep, hp, List.append_assoc]⟩

/-- C9: a nonzero MaxAge or SMaxAge whose absolute value is under half a
second still yields its directive, with the rounded value zero: the token
max-age=0 (respectively s-max-age=0) is among the emitted directives and
occurs in the BuildHeaderValues output, because the omission test is on the
raw duration, not on the rounded seconds. -/
theorem c9_subsecond_duration_emitted :
    ∀ t : caching.Options,
      (t.MaxAge ≠ 0 → t.MaxAge.natAbs < 500000000 →
        lit "max-age=0" ∈ cacheDirectiveTokens t ∧
        goContains t.BuildHeaderValues (lit "max-age=0") = true) ∧
      (t.SMaxAge ≠ 0 → t.SMaxAge.natAbs < 500000000 →
        lit "s-max-age=0" ∈ cacheDirectiveTokens t ∧
        goContains t.BuildHeaderValues (lit "s-max-age=0") = true) := by
  intro t
  constructor
  · intro h1 h2
    have htokeq : lit "max-age=" ++ intToStr (durSecondsInt (durRound t.MaxAge goSecond))
        = lit "max-age=0" := by
      rw [durRound_small h2]
      decide
    have htok : lit "max-age=0" ∈ cacheDirectiveTokens t := by
      simp [cacheDirectiveTokens, h1, htokeq]
    refine ⟨htok, ?_⟩
    obtain ⟨pre, post, hdecomp⟩ := joinSep_mem_decomp (lit ", ") _ _ htok
    rw [bv_eq_joinSep t, hdecomp]
    exact goContains_parts pre _ post
  · intro h1 h2
    have htokeq : lit "s-max-age=" ++ intToStr (durSecondsInt (durRound t.SMaxAge goSecond))
        = lit "s-max-age=0" := by
      rw [durRound_small h2]
      decide
    have htok : lit "s-max-age=0" ∈ cacheDirectiveTokens t := by
      simp [cacheDirectiveTokens, h1, htokeq]
    refine ⟨htok, ?_⟩
    obtain ⟨pre, post, hdecomp⟩ := joinSep_mem_decomp (lit ", ") _ _ htok
    rw [bv_eq_joinSep t, hdecomp]
    exact goContains_parts pre _ post

/-- Witness for C9 with a one-nanosecond MaxAge and a minus
four-hundred-millisecond SMaxAge. -/
theorem c9_subsecond_duration_emitted_witness :
    (lit "max-age=0" ∈ cacheDirectiveTokens { MaxAge := 1, SMaxAge := -400000000 } ∧
      goContains (caching.Options.BuildHeaderValues { MaxAge := 1, SMaxAge := -400000000 })
        (lit "max-age=0") = true) ∧
    (lit "s-max-age=0" ∈ cacheDirectiveTokens { MaxAge := 1, SMaxAge := -400000000 } ∧
      goContains (caching.Options.BuildHeaderValues { MaxAge := 1, SMaxAge := -400000000 })
        (lit "s-max-age=0") = true) :=
  ⟨(c9_subsecond_duration_emitted { MaxAge := 1, SMaxAge := -400000000 }).1
      (by decide) (by decide),
    (c9_subsecond_duration_emitted { MaxAge := 1, SMaxAge := -400000000 }).2
      (by decide) (by decide)⟩

theorem inner_foldl (a : Str) : ∀ (ts acc : List Str),
    List.foldl
        (fun acc2 accEnc =>
          if a == goTrimSpace (goToLower accEnc) then acc2 ++ [a] else acc2) acc ts
      = acc ++ (ts.map normToken).filter (fun x => a == x)
  | [], acc => by simp
  | x :: ts, acc => by
    simp only [List.foldl_cons, List.map_cons, List.filter_cons]
    by_cases h : (a == goTrimSpace (goToLower x)) = true
    · rw [if_pos h, inner_foldl a ts (acc ++ [a])]
      have hx : normToken x = a := (eq_of_beq h).symm
      rw [show (a == normToken x) = true by rw [hx]; exact beq_self_eq_true a]
      rw [hx]
      simp [List.append_assoc]
    · rw [if_neg h, inner_foldl a ts acc]
      rw [show (a == normToken x) = false by simpa [normToken] using h]
      simp

theorem negotiate_foldl (ts : List Str) : ∀ (avail acc : List Str),
    List.foldl
        (fun acc availEnc =>
          List.foldl
            (fun acc2 accEnc =>
              if availEnc == goTrimSpace (goToLower accEnc) then acc2 ++ [availEnc] else acc2)
            acc ts) acc avail
      = acc ++ avail.flatMap (fun a => (ts.map normToken).filter (fun x => a == x))
  | [], acc => by simp
  | a :: avail, acc => by
    simp only [List.foldl_cons]
    rw [inner_foldl a ts acc, negotiate_foldl ts avail _]
    simp [List.append_assoc]

theorem negotiateEncodings_eq (h : Str) (avail : List Str) :
    negotiateEncodings h avail
      = avail.flatMap (fun a => ((goSplitComma h).map normToken).filter (fun x => a == x)) := by
  cases avail with
  | nil => rfl
  | cons a rest =>
    show List.foldl _ ([] : List Str) (a :: rest) = _
    rw [negotiate_foldl (goSplitComma h) (a :: rest) []]
    simp

theorem filter_eq_of_nodup : ∀ l : List Str, l.Nodup → ∀ a : Str,
    l.filter (fun x => a == x) = if a ∈ l then [a] else []
  | [], _, a => by simp
  | x :: l, hnd, a => by
    rw [List.nodup_cons] at hnd
    obtain ⟨hx, hl⟩ := hnd
    rw [List.filter_cons]
    by_cases heq : a = x
    · subst heq
      rw [if_pos (beq_self_eq_true a), if_pos (List.mem_cons_self a l)]
      have hfil : l.filter (fun x => a == x) = [] := by
        apply List.filter_eq_nil_iff.mpr
        intro b hb
        simp only [beq_iff_eq]
        intro hcon
        exact hx (hcon ▸ hb)
      rw [hfil]
    · rw [if_neg (by simpa using heq), filter_eq_of_nodup l hl a]
      by_cases hm : a ∈ l
      · rw [if_pos hm, if_pos (List.mem_cons_of_mem x hm)]
      · rw [if_neg hm, if_neg (by simp [List.mem_cons, heq, hm])]

theorem negotiateEncodings_nodup (h : Str) (avail : List Str)
    (hnd : ((goSplitComma h).map normToken).Nodup) :
    negotiateEncodings h avail = specNegotiate h avail := by
  rw [negotiateEncodings_eq]
  unfold specNegotiate
  induction avail with
  | nil => rfl
  | cons a rest ih =>
    rw [List.flatMap_cons, List.filter_cons, ih, filter_eq_of_nodup _ hnd a]
    by_cases hmem : a ∈ (goSplitComma h).map normToken
    · have hc : ((goSplitComma h).map normToken).contains a = true :=
        List.elem_eq_true_of_mem hmem
      rw [if_pos hmem, if_pos hc]
      rfl
    · have hc : ((goSplitComma h).map normToken).contains a = false := by
        rw [← Bool.not_eq_true]
        intro hcon
        exact hmem (List.mem_of_elem_eq_true hcon)
      rw [if_neg hmem, if_neg (by rw [hc]; exact Bool.false_ne_true)]
      rfl

/-- C5 counterexample: with available encodings [gzip] and the header
"gzip,gzip", negotiateEncodings returns gzip twice, which is not the subset
of the available encodings the claim describes (specNegotiate). -/
theorem c5_counterexample_duplicate_tokens :
    negotiateEncodings (lit "gzip,gzip") [lit "gzip"] = [lit "gzip", lit "gzip"] ∧
    specNegotiate (lit "gzip,gzip") [lit "gzip"] = [lit "gzip"] ∧
    negotiateEncodings (lit "gzip,gzip") [lit "gzip"]
      ≠ specNegotiate (lit "gzip,gzip") [lit "gzip"] := by
  refine ⟨by decide, by decide, by decide⟩

/-- C5 amended: the result lists each available encoding once per occurrence
of its token among the parsed (comma-split, lowercased, trimmed) accepted
tokens, in server-preference order; when the parsed accepted tokens are
duplicate-free, this is exactly the subset of the available encodings
appearing in the accepted list (specNegotiate); with available [br, gzip]
and header "gzip, deflate" the result is [gzip], with the empty header it is
empty, and with no available encodings it is empty for every header. -/
theorem c5_negotiation_amended :
    (∀ (h : Str) (avail : List Str),
      negotiateEncodings h avail
        = avail.flatMap (fun a => ((goSplitComma h).map normToken).filter (fun x => a == x))) ∧
    (∀ (h : Str) (avail : List Str),
      ((goSplitComma h).map normToken).Nodup →
        negotiateEncodings h avail = specNegotiate h avail) ∧
    negotiateEncodings (lit "gzip, deflate") [lit "br", lit "gzip"] = [lit "gzip"] ∧
    negotiateEncodings (lit "") [lit "br", lit "gzip"] = [] ∧
    ∀ h : Str, negotiateEncodings h [] = [] := by
  exact ⟨negotiateEncodings_eq, negotiateEncodings_nodup, by decide, by decide, fun _ => rfl⟩

/-- Witness for the amended C5 at the documented header and encoding list. -/
theorem c5_negotiation_amended_witness :
    negotiateEncodings (lit "gzip, deflate") [lit "br", lit "gzip"]
      = specNegotiate (lit "gzip, deflate") [lit "br", lit "gzip"] :=
  c5_negotiation_amended.2.1 (lit "gzip, deflate") [lit "br", lit "gzip"] (by decide)

/-- C8: for every request whose method is neither GET nor HEAD, both the
Server and the Content handler return 405 regardless of path map, options
and file system (so before any path validation, mapping or file access);
GET and HEAD requests proceed past this gate to the traversal check and the
handler body. -/
theorem c8_method_gate :
    (∀ (pm : List (Str × Str)) (o : ServerOptions) (d : DirFn) (req : Request),
      req.method ≠ lit "GET" → req.method ≠ lit "HEAD" →
        Server pm o d req = .httpError 405 none) ∧
    (∀ (p : Str) (o : ServerOptions) (d : DirFn) (req : Request),
      req.method ≠ lit "GET" → req.method ≠ lit "HEAD" →
        Content p o d req = .httpError 405 none) ∧
    (∀ (pm : List (Str × Str)) (o : ServerOptions) (d : DirFn) (req : Request),
      (req.method = lit "GET" ∨ req.method = lit "HEAD") →
        Server pm o d req =
          (if containsDotDot req.path then .httpError 400 (some (lit "invalid URL path"))
           else serverBody (parsePathMap pm).1 (parsePathMap pm).2 o d req)) ∧
    (∀ (p : Str) (o : ServerOptions) (d : DirFn) (req : Request),
      (req.method = lit "GET" ∨ req.method = lit "HEAD") →
        Content p o d req =
          (if containsDotDot req.path then .httpError 400 (some (lit "invalid URL path"))
           else serveFile ⟨d, negotiateEncodings req.acceptEncoding (compressionList o)⟩
              (if goIsAbs p then [] else p))) := by
  refine ⟨?_, ?_, ?_, ?_⟩
  · intro pm o d req h1 h2
    simp only [Server]
    rw [if_pos ⟨h1, h2⟩]
  · intro p o d req h1 h2
    simp only [Content]
    rw [if_pos ⟨h1, h2⟩]
  · intro pm o d req hm
    simp only [Server]
    rw [if_neg (fun hcon => hm.elim (fun h => hcon.1 h) (fun h => hcon.2 h))]
  · intro p o d req hm
    simp only [Content]
    rw [if_neg (fun hcon => hm.elim (fun h => hcon.1 h) (fun h => hcon.2 h))]

/-- Witness for C8 with a POST request. -/
theorem c8_method_gate_witness :
    Server [] {} (fun _ => .error (lit "e"))
        { method := lit "POST", path := lit "/x", acceptEncoding := lit "" }
      = .httpError 405 none ∧
    Content (lit "x") {} (fun _ => .error (lit "e"))
        { method := lit "POST", path := lit "/x", acceptEncoding := lit "" }
      = .httpError 405 none ∧
    Server [] {} (fun _ => .error (lit "e"))
        { method := lit "GET", path := lit "/x", acceptEncoding := lit "" }
      = (if containsDotDot (lit "/x") then .httpError 400 (some (lit "invalid URL path"))
         else serverBody (parsePathMap []).1 (parsePathMap []).2 {}
            (fun _ => .error (lit "e"))
            { method := lit "GET", path := lit "/x", acceptEncoding := lit "" }) :=
  ⟨c8_method_gate.1 [] {} _ _ (by decide) (by decide),
    c8_method_gate.2.1 (lit "x") {} _ _ (by decide) (by decide),
    c8_method_gate.2.2.1 [] {} _ _ (Or.inl rfl)⟩

theorem fieldsFuncAux_decomp (f : Char → Bool) :
    ∀ (l acc x : List Char), x ∈ fieldsFuncAux f l acc →
      ∃ pre post, acc.reverse ++ l = pre ++ (x ++ post)
  | [], acc, x, hx => by
    by_cases ha : acc.isEmpty = true
    · rw [fieldsFuncAux, if_pos ha] at hx
      simp at hx
    · rw [fieldsFuncAux, if_neg ha] at hx
      simp only [List.mem_singleton] at hx
      subst hx
      exact ⟨[], [], by simp⟩
  | c :: s, acc, x, hx => by
    rw [fieldsFuncAux] at hx
    by_cases hf : f c = true
    · rw [if_pos hf] at hx
      by_cases ha : acc.isEmpty = true
      · rw [if_pos ha] at hx
        obtain ⟨pre, post, hp⟩ := fieldsFuncAux_decomp f s [] x hx
        simp only [List.reverse_nil, List.nil_append] at hp
        exact ⟨acc.reverse ++ c :: pre, post, by
          rw [List.append_assoc, List.cons_append, hp]⟩
      · rw [if_neg ha] at hx
        rcases List.mem_cons.mp hx with heq | hx
        · subst heq
          exact ⟨[], c :: s, by simp⟩
        · obtain ⟨pre, post, hp⟩ := fieldsFuncAux_decomp f s [] x hx
          simp only [List.reverse_nil, List.nil_append] at hp
          exact ⟨acc.reverse ++ c :: pre, post, by
            rw [List.append_assoc, List.cons_append, hp]⟩
    · rw [if_neg hf] at hx
      obtain ⟨pre, post, hp⟩ := fieldsFuncAux_decomp f s (c :: acc) x hx
      simp only [List.reverse_cons, List.append_assoc, List.singleton_append] at hp
      exact ⟨pre, post, by rw [← hp]⟩

theorem mem_fields_goContains {v x : Str} (hx : x ∈ fieldsFunc isSlashRune v) :
    goContains v x = true := by
  obtain ⟨pre, post, hdec⟩ := fieldsFuncAux_decomp isSlashRune v [] x hx
  simp only [List.reverse_nil, List.nil_append] at hdec
  rw [hdec]
  exact goContains_parts pre x post

theorem containsDotDot_iff (v : Str) :
    containsDotDot v = true ↔ lit ".." ∈ fieldsFunc isSlashRune v := by
  unfold containsDotDot
  by_cases hc : goContains v (lit "..") = true
  · simp [hc, List.any_eq_true, beq_iff_eq]
  · have hcf : goContains v (lit "..") = false := by
      rwa [← Bool.not_eq_true]
    simp only [hcf, Bool.not_false, if_true]
    constructor
    · intro h; cases h
    · intro hm
      have := mem_fields_goContains hm
      rw [hcf] at this
      cases this

/-- C4 counterexample: a POST request for /css/../../etc/passwd is answered
with 405 MethodNotAllowed, not 400 BadRequest, because the method gate
precedes the traversal check. -/
theorem c4_counterexample_post_traversal :
    Server [] {} (fun _ => .error (lit "e"))
        { method := lit "POST", path := lit "/css/../../etc/passwd", acceptEncoding := lit "" }
      = .httpError 405 none ∧
    Server [] {} (fun _ => .error (lit "e"))
        { method := lit "POST", path := lit "/css/../../etc/passwd", acceptEncoding := lit "" }
      ≠ .httpError 400 (some (lit "invalid URL path")) :=
  ⟨by decide, by decide⟩

/-- C4 amended: for every GET or HEAD request whose URL path has a complete
".." segment (a field of the slash-split path), Server returns BadRequest
400 with message "invalid URL path", whatever the mapping table, the options
and the file system — so before any path mapping or file access; the
example path /css/../../etc/passwd is such a path. -/
theorem c4_traversal_rejected :
    (∀ (pm : List (Str × Str)) (o : ServerOptions) (d : DirFn) (req : Request),
      (req.method = lit "GET" ∨ req.method = lit "HEAD") →
      lit ".." ∈ fieldsFunc isSlashRune req.path →
        Server pm o d req = .httpError 400 (some (lit "invalid URL path"))) ∧
    containsDotDot (lit "/css/../../etc/passwd") = true := by
  constructor
  · intro pm o d req hm hseg
    have hdd : containsDotDot req.path = true := (containsDotDot_iff _).mpr hseg
    simp only [Server]
    rw [if_neg (fun hcon => hm.elim (fun h => hcon.1 h) (fun h => hcon.2 h))]
    rw [if_pos hdd]
  · decide

/-- Witness for the amended C4 at a GET request for the documented traversal
path, with an arbitrary one-entry mapping table. -/
theorem c4_traversal_rejected_witness :
    Server [(lit "/css", lit "/ui/css")] {} (fun _ => .error (lit "e"))
        { method := lit "GET", path := lit "/css/../../etc/passwd", acceptEncoding := lit "" }
      = .httpError 400 (some (lit "invalid URL path")) :=
  c4_traversal_rejected.1 [(lit "/css", lit "/ui/css")] {} _ _ (Or.inl rfl) (by decide)

theorem serveFile_not_400 (dir : CompressionDir) (p : Str) (msg : Option Str) :
    serveFile dir p ≠ .httpError 400 msg := by
  unfold serveFile
  split
  · simp
  · split
    · simp
    · split
      · simp
      · simp

theorem serverBody_not_400 (fk tv : List Str) (o : ServerOptions) (d : DirFn)
    (req : Request) (msg : Option Str) : serverBody fk tv o d req ≠ .httpError 400 msg := by
  unfold serverBody
  dsimp only
  split
  · simp
  · split
    · split
      · exact serveFile_not_400 _ _ _
      · simp
    · split
      · simp
      · split
        · split
          · simp
          · exact serveFile_not_400 _ _ _
        · simp

/-- C10: the traversal check rejects exactly complete ".." segments, where
segments are delimited by forward or backward slashes alike: containsDotDot
holds iff ".." is a field of the slash-split path; when the substring ".."
occurs only inside longer segments (no field equals ".."), neither Server
nor Content returns a 400 error, and a GET or HEAD request proceeds past
the gates to path mapping and file opening; a ".." segment delimited by
backslashes is rejected exactly as one delimited by forward slashes. -/
theorem c10_only_full_dotdot_segments :
    (∀ v : Str, containsDotDot v = true ↔ lit ".." ∈ fieldsFunc isSlashRune v) ∧
    (∀ (pm : List (Str × Str)) (o : ServerOptions) (d : DirFn) (req : Request)
        (msg : Option Str),
      lit ".." ∉ fieldsFunc isSlashRune req.path →
        Server pm o d req ≠ .httpError 400 msg ∧
        ∀ p0 : Str, Content p0 o d req ≠ .httpError 400 msg) ∧
    (∀ (pm : List (Str × Str)) (o : ServerOptions) (d : DirFn) (req : Request),
      lit ".." ∉ fieldsFunc isSlashRune req.path →
      (req.method = lit "GET" ∨ req.method = lit "HEAD") →
        Server pm o d req = serverBody (parsePathMap pm).1 (parsePathMap pm).2 o d req ∧
        ∀ p0 : Str, Content p0 o d req
          = serveFile ⟨d, negotiateEncodings req.acceptEncoding (compressionList o)⟩
              (if goIsAbs p0 then [] else p0)) ∧
    (containsDotDot (lit "/a..b/c.css") = false ∧
      containsDotDot (lit "\\..\\x") = true ∧ containsDotDot (lit "/../x") = true) := by
  have hfalse : ∀ v : Str, lit ".." ∉ fieldsFunc isSlashRune v → containsDotDot v = false := by
    intro v hseg
    rw [← Bool.not_eq_true]
    intro hcon
    exact hseg ((containsDotDot_iff v).mp hcon)
  refine ⟨containsDotDot_iff, ?_, ?_, by decide, by decide, by decide⟩
  · intro pm o d req msg hseg
    have hdd := hfalse req.path hseg
    constructor
    · simp only [Server]
      split
      · simp
      · rw [if_neg (by rw [hdd]; exact Bool.false_ne_true)]
        exact serverBody_not_400 _ _ _ _ _ _
    · intro p0
      simp only [Content]
      split
      · simp
      · rw [if_neg (by rw [hdd]; exact Bool.false_ne_true)]
        exact serveFile_not_400 _ _ _
  · intro pm o d req hseg hm
    have hdd := hfalse req.path hseg
    constructor
    · simp only [Server]
      rw [if_neg (fun hcon => hm.elim (fun h => hcon.1 h) (fun h => hcon.2 h))]
      rw [if_neg (by rw [hdd]; exact Bool.false_ne_true)]
    · intro p0
      simp only [Content]
      rw [if_neg (fun hcon => hm.elim (fun h => hcon.1 h) (fun h => hcon.2 h))]
      rw [if_neg (by rw [hdd]; exact Bool.false_ne_true)]

/-- Witness for C10 at a GET request for /a..b/c.css, whose ".." occurs only
inside a longer segment. -/
theorem c10_only_full_dotdot_segments_witness :
    (Server [] {} (fun _ => .error (lit "e"))
        { method := lit "GET", path := lit "/a..b/c.css", acceptEncoding := lit "" }
      ≠ .httpError 400 (some (lit "invalid URL path"))) ∧
    Server [] {} (fun _ => .error (lit "e"))
        { method := lit "GET", path := lit "/a..b/c.css", acceptEncoding := lit "" }
      = serverBody (parsePathMap []).1 (parsePathMap []).2 {} (fun _ => .error (lit "e"))
          { method := lit "GET", path := lit "/a..b/c.css", acceptEncoding := lit "" } :=
  ⟨(c10_only_full_dotdot_segments.2.1 [] {} _ _ _ (by decide)).1,
    (c10_only_full_dotdot_segments.2.2.1 [] {} _ _ (by decide) (Or.inl rfl)).1⟩

/-- C3 counterexample: with mapping /assets to /static, CatchAllFile set to
404.html and a file system where every open fails, a GET request for /other
(which matches no mapping prefix) is answered by the bare 404 with no
message, not by serving the catch-all file (serveFile would carry the open
error message). -/
theorem c3_counterexample_unmatched_path :
    Server [(lit "/assets", lit "/static")] { CatchAllFile := lit "404.html" }
        (fun _ => .error (lit "open: no such file"))
        { method := lit "GET", path := lit "/other", acceptEncoding := lit "" }
      = .httpError 404 none ∧
    serveFile
        ⟨fun _ => .error (lit "open: no such file"),
          negotiateEncodings (lit "") (compressionList { CatchAllFile := lit "404.html" })⟩
        (lit "404.html")
      = .httpError 404 (some (lit "open: no such file")) ∧
    Server [(lit "/assets", lit "/static")] { CatchAllFile := lit "404.html" }
        (fun _ => .error (lit "open: no such file"))
        { method := lit "GET", path := lit "/other", acceptEncoding := lit "" }
      ≠ serveFile
          ⟨fun _ => .error (lit "open: no such file"),
            negotiateEncodings (lit "") (compressionList { CatchAllFile := lit "404.html" })⟩
          (lit "404.html") :=
  ⟨by decide, by decide, by decide⟩

/-- C3 amended: the catch-all file is served exactly when the request passes
the method and traversal gates, the path map matches, the allow predicate
does not veto the mapped path, and opening the mapped path fails; the
result is then serveFile on the catch-all name under the same compression
directory, and serveFile applies the plain directory/streaming rules with
no further catch-all fallback: an open failure yields 404 with the error
message and a directory yields 404.  A path matching no mapping prefix
yields the bare 404 even when CatchAllFile is set. -/
theorem c3_catch_all_on_open_failure :
    (∀ (pm : List (Str × Str)) (o : ServerOptions) (d : DirFn) (req : Request) (e : Str),
      (req.method = lit "GET" ∨ req.method = lit "HEAD") →
      containsDotDot req.path = false →
      (matchPath req.path (parsePathMap pm).1 (parsePathMap pm).2).2 = true →
      (match o.Allow with
        | some allow => allow (matchPath req.path (parsePathMap pm).1 (parsePathMap pm).2).1
        | none => true) = true →
      CompressionDir.Open ⟨d, negotiateEncodings req.acceptEncoding (compressionList o)⟩
          (matchPath req.path (parsePathMap pm).1 (parsePathMap pm).2).1 = .error e →
      o.CatchAllFile ≠ [] →
        Server pm o d req
          = serveFile ⟨d, negotiateEncodings req.acceptEncoding (compressionList o)⟩
              o.CatchAllFile) ∧
    (∀ (dir : CompressionDir) (p e : Str),
      dir.Open p = .error e → serveFile dir p = .httpError 404 (some e)) ∧
    (∀ (dir : CompressionDir) (p : Str) (f : GoFile) (enc : Str) (st : FileStat),
      dir.Open p = .ok (f, enc) → f.stat = .ok st → st.isDir = true →
        serveFile dir p = .httpError 404 none) ∧
    (∀ (pm : List (Str × Str)) (o : ServerOptions) (d : DirFn) (req : Request),
      (req.method = lit "GET" ∨ req.method = lit "HEAD") →
      containsDotDot req.path = false →
      (matchPath req.path (parsePathMap pm).1 (parsePathMap pm).2).2 = false →
        Server pm o d req = .httpError 404 none) := by
  refine ⟨?_, ?_, ?_, ?_⟩
  · intro pm o d req e hm hdd hfound hallow hopen hcatch
    simp only [Server]
    rw [if_neg (fun hcon => hm.elim (fun h => hcon.1 h) (fun h => hcon.2 h))]
    rw [if_neg (by rw [hdd]; exact Bool.false_ne_true)]
    unfold serverBody
    dsimp only
    have hguard : (!(matchPath req.path (parsePathMap pm).1 (parsePathMap pm).2).2 ||
        (match o.Allow with
          | some allow => !allow (matchPath req.path (parsePathMap pm).1 (parsePathMap pm).2).1
          | none => false)) = false := by
      rw [hfound]
      cases hA : o.Allow with
      | none => simp
      | some allow =>
        rw [hA] at hallow
        simp only at hallow
        simp [hallow]
    rw [if_neg (by rw [hguard]; exact Bool.false_ne_true)]
    rw [hopen]
    dsimp only
    rw [if_pos hcatch]
  · intro dir p e hopen
    unfold serveFile
    rw [hopen]
  · intro dir p f enc st hopen hstat hdir
    unfold serveFile
    rw [hopen]
    dsimp only
    rw [hstat]
    dsimp only
    rw [if_pos hdir]
  · intro pm o d req hm hdd hnot
    simp only [Server]
    rw [if_neg (fun hcon => hm.elim (fun h => hcon.1 h) (fun h => hcon.2 h))]
    rw [if_neg (by rw [hdd]; exact Bool.false_ne_true)]
    unfold serverBody
    dsimp only
    rw [if_pos (by rw [hnot]; rfl)]

/-- Witness for the amended C3: a matched path whose open fails is answered
by serveFile on the configured catch-all file. -/
theorem c3_catch_all_on_open_failure_witness :
    Server [(lit "/assets", lit "/static")] { CatchAllFile := lit "404.html" }
        (fun p => if p = lit "404.html" then .ok ⟨.ok ⟨false⟩⟩ else .error (lit "nope"))
        { method := lit "GET", path := lit "/assets/app.js", acceptEncoding := lit "" }
      = serveFile
          ⟨fun p => if p = lit "404.html" then .ok ⟨.ok ⟨false⟩⟩ else .error (lit "nope"),
            negotiateEncodings (lit "") (compressionList { CatchAllFile := lit "404.html" })⟩
          (lit "404.html") :=
  c3_catch_all_on_open_failure.1 [(lit "/assets", lit "/static")]
    { CatchAllFile := lit "404.html" }
    (fun p => if p = lit "404.html" then .ok ⟨.ok ⟨false⟩⟩ else .error (lit "nope"))
    { method := lit "GET", path := lit "/assets/app.js", acceptEncoding := lit "" }
    (lit "nope") (Or.inl rfl) (by decide) (by decide) (by decide) (by decide) (by decide)
